import Mathlib

/-!
Verification of the trast NER service against its specification.

Two components are embedded:

* the entity-extraction phase of `Pipeline::predict`
  (`onnx-bert/src/lib.rs`, lines 112-167).  The tokenizer and the ONNX
  model are external collaborators (spec section 1 and 6): their outputs,
  the per-token byte-offset ranges and the per-token score rows, are the
  inputs of the embedded function.  The `f32` scores are modelled as
  rationals, and `f32::exp` is abstracted by a function parameter `fexp`
  (for the real exponential, `fexp` is strictly monotone and positive;
  the theorems take exactly the order-theoretic facts they need as
  hypotheses on `fexp`).

* the dispatch actor of `trast/src/main.rs` (`act`, `spawn_ner_task`,
  `wait`, `From<Error> for Status`), as a labelled transition system over
  an explicit actor state, with one abstract time unit per `tick` of the
  idle timer.
-/

namespace Trast

/-! ## Entity extractor: data model (onnx-bert/src/lib.rs) -/

/-- Structure `RawEntity` (source line 37): the extractor-internal accumulator
`{label: i64, score: f32, start: usize, end: usize}`.  `end` is a Lean
keyword, so the field is called `stop`. -/
structure RawEntity where
  label : ℕ
  score : ℚ
  start : ℕ
  stop : ℕ
deriving DecidableEq, Repr

/-- Structure `Entity` (source line 15): the output record.  `word` is the byte
slice of the sentence, modelled as the list of its bytes. -/
structure Entity where
  label : String
  score : ℚ
  word : List ℕ
  start : ℕ
  stop : ℕ
deriving DecidableEq, Repr

/-- Constant `f32::MIN`, the initial value of the running maximum in the arg-max
loop (source line 118), as an exact rational. -/
def f32MIN : ℚ := -340282346638528859811704183484516925440

/-- State of the per-row loop of lines 117-128: the running softmax
denominator `sum`, the running maximum `best` (called `max` in the
source) and the current arg-max `label`. -/
structure RowAcc where
  sum : ℚ
  best : ℚ
  label : ℕ
deriving DecidableEq, Repr

/-- One iteration of the loop of lines 121-128: exponentiate the raw
score (`let z = z.exp()`), add it to `sum`, and update `best`/`label`
on a strict improvement (`if z > max`). -/
def rowStep (fexp : ℚ → ℚ) (acc : RowAcc) (p : ℕ × ℚ) : RowAcc :=
  let z := fexp p.2
  { sum := acc.sum + z
    best := if acc.best < z then z else acc.best
    label := if acc.best < z then p.1 else acc.label }

/-- The loop of lines 121-128 over the remaining scores, `i` being the
index of the next score (`for (i, z) in scores.iter().enumerate()`). -/
def scanRowAux (fexp : ℚ → ℚ) : ℕ → RowAcc → List ℚ → RowAcc
  | _, acc, [] => acc
  | i, acc, z :: rest => scanRowAux fexp (i + 1) (rowStep fexp acc (i, z)) rest

/-- Lines 117-128: scan one score row starting from
`sum = 0., max = f32::MIN, label = 0`. -/
def scanRow (fexp : ℚ → ℚ) (row : List ℚ) : RowAcc :=
  scanRowAux fexp 0 ⟨0, f32MIN, 0⟩ row

/-- The arg-max label id of a score row. -/
def rowLabel (fexp : ℚ → ℚ) (row : List ℚ) : ℕ := (scanRow fexp row).label

/-- Line 130, `let score = max / sum`: the per-token confidence. -/
def rowScore (fexp : ℚ → ℚ) (row : List ℚ) : ℚ :=
  (scanRow fexp row).best / (scanRow fexp row).sum

/-- Lines 133-145: either extend the last open span in place (same
label: `score = max`, `start = min`, `end = max`) or push a new one. -/
def merge2 (p r : RawEntity) : RawEntity :=
  ⟨p.label, max p.score r.score, min p.start r.start, max p.stop r.stop⟩

/-- Lines 133-145, one token: `entities.last_mut()` is the last element
of the accumulator vector; it is mutated in place when its label matches,
otherwise the new raw entity is pushed. -/
def extendOrPush (acc : List RawEntity) (r : RawEntity) : List RawEntity :=
  match acc.getLast? with
  | some prev =>
      if prev.label = r.label then acc.dropLast ++ [merge2 prev r] else acc ++ [r]
  | none => acc ++ [r]

/-- The record built for one token from its score row and its byte-offset
range (lines 117-131). -/
def tokenRecord (fexp : ℚ → ℚ) (row : List ℚ) (off : ℕ × ℕ) : RawEntity :=
  ⟨rowLabel fexp row, rowScore fexp row, off.1, off.2⟩

/-- The per-token records of a whole sentence: row `i` of the logits is
paired with `input.get_offsets()[i]` (line 131). -/
def records (fexp : ℚ → ℚ) (logits : List (List ℚ)) (offsets : List (ℕ × ℕ)) :
    List RawEntity :=
  (logits.zip offsets).map fun p => tokenRecord fexp p.1 p.2

/-- Lines 112-146: the accumulation loop over all rows, starting from the
empty vector. -/
def spans (rs : List RawEntity) : List RawEntity :=
  rs.foldl extendOrPush []

/-- Line 150: `e.label != 0 && e.end > e.start`. -/
def entityFilter (r : RawEntity) : Bool :=
  r.label != 0 && decide (r.start < r.stop)

/-- Rust `str::is_char_boundary` on a byte string: position 0, the
length, or a position holding a byte that is not a UTF-8 continuation
byte (`0x80..=0xBF`, i.e. `b / 64 = 2`). -/
def isCharBoundary (s : List ℕ) (i : ℕ) : Bool :=
  i == 0 || i == s.length || (decide (i < s.length) && (s.getD i 0) / 64 != 2)

/-- Rust `&sentence[start..end]` on a `str` (line 160): defined exactly
when `start <= end` and both ends are char boundaries (hence within
bounds); out-of-range slicing panics, modelled as `none`. -/
def sliceBytes (s : List ℕ) (a b : ℕ) : Option (List ℕ) :=
  if a ≤ b ∧ isCharBoundary s a ∧ isCharBoundary s b then
    some ((s.drop a).take (b - a))
  else none

/-- Lines 151-164: turn one surviving raw span into an `Entity`.  The
source indexes `self.config.id2label[&label]` (a panic when the label id
is missing) and slices the sentence (a panic when out of range); both
panics are modelled as `none`. -/
def toEntity (id2label : ℕ → Option String) (s : List ℕ) (r : RawEntity) :
    Option Entity :=
  match id2label r.label, sliceBytes s r.start r.stop with
  | some lbl, some w => some ⟨lbl, r.score, w, r.start, r.stop⟩
  | _, _ => none

/-- Map a fallible conversion over a list, failing if any element fails
(the Option image of Rust's panicking `map`). -/
def mapOpt (f : α → Option β) : List α → Option (List β)
  | [] => some []
  | a :: l =>
    match f a, mapOpt f l with
    | some b, some bs => some (b :: bs)
    | _, _ => none

/-- Lines 148-165: filter the raw spans and map the survivors to
entities. -/
def finalize (id2label : ℕ → Option String) (s : List ℕ)
    (rs : List RawEntity) : Option (List Entity) :=
  mapOpt (toEntity id2label s) (rs.filter entityFilter)

/-- The entity-extraction phase of `Pipeline::predict` (lines 112-167):
from the tokenizer's byte offsets and the model's logits rows to the
entity list.  The tokenizer and model themselves are external
collaborators; their failure or success is outside this function. -/
def predictEntities (fexp : ℚ → ℚ) (id2label : ℕ → Option String)
    (sentence : List ℕ) (offsets : List (ℕ × ℕ)) (logits : List (List ℚ)) :
    Option (List Entity) :=
  finalize id2label sentence (spans (records fexp logits offsets))

/-- A concrete stand-in for `f32::exp` used by witnesses: strictly
monotone and everywhere positive on ℚ. -/
def expQ (x : ℚ) : ℚ := if 0 ≤ x then x + 1 else 1 / (1 - x)

/-- The mathematical softmax denominator of a row: the sum of the
exponentials. -/
def sumExp (fexp : ℚ → ℚ) (row : List ℚ) : ℚ :=
  row.foldl (fun a z => a + fexp z) 0

/-- The mathematical softmax of a row: each exponential divided by the
sum of all exponentials. -/
def softmaxRow (fexp : ℚ → ℚ) (row : List ℚ) : List ℚ :=
  row.map fun z => fexp z / sumExp fexp row

/-- The largest raw score of a row (0 for an empty row). -/
def rowMax : List ℚ → ℚ
  | [] => 0
  | z :: rest => rest.foldl max z

/-- Modelled from the spec: spec section 4.1 step 1 prescribes a
numerically stable softmax, "subtract row max before exponentiating".
No such subtraction exists in the source (line 122 exponentiates the raw
score); this definition is the spec's prescribed computation, the same
row scan run on the max-shifted scores, for comparison with the source's
`rowScore`. -/
def stableRowScore (fexp : ℚ → ℚ) (row : List ℚ) : ℚ :=
  rowScore fexp (row.map fun z => z - rowMax row)

/-- Proof vehicle for the accumulation loop: the same scan with the
vector's mutable last element (`entities.last_mut()`) held apart as the
one open span.  `spans` is proved equal to the recombination of the two
components. -/
def stepSpan :
    List RawEntity × Option RawEntity → RawEntity → List RawEntity × Option RawEntity
  | (closed, none), r => (closed, some r)
  | (closed, some prev), r =>
    if prev.label = r.label then (closed, some (merge2 prev r))
    else (closed ++ [prev], some r)

/-- A concrete id-to-label map used by witnesses: label id 1 is "ORG". -/
def exampleId2label : ℕ → Option String :=
  fun n => if n = 1 then some ("ORG") else none

/-! ## Dispatch actor (trast/src/main.rs)

The actor of `act` (lines 165-187) is a single `select!` loop over two
event sources: the inbound message channel and the idle wait
(`wait`, lines 160-163, which first drains the `FuturesUnordered` of
job handles and then sleeps `PIPELINE_TTL`).  Processing one message
(`spawn_ner_task`, lines 110-158) constructs the pipeline inline when it
is absent — the loop does not service other messages meanwhile — and
then hands one job to the worker pool.  Each job completion sends its
result on its own request's oneshot channel.

The embedding is a transition system: events are message arrival
(carrying the would-be outcome of a construction attempt, since the
filesystem/network is external), completion of one worker job (carrying
its success or failure), and the passage of one time unit while the
actor is idle.  Each step returns the replies sent on completion
channels during that step as observations. -/

/-- Duration `PIPELINE_TTL` (line 32, 60 seconds), in abstract time units. -/
def pipelineTTL : ℕ := 60

/-- The actor's state: `pipeline` is `Some`/`None` of line 168 (ready
vs absent), `tasks` the ids of the outstanding worker jobs
(`FuturesUnordered`, line 169), `nextJob` a fresh-id counter,
`attempts` the number of construction attempts started so far
(`get_pipeline` calls), and `idleFor` the time units slept so far on
the idle timer since the task set drained. -/
structure ActorState where
  pipeline : Bool
  tasks : List ℕ
  nextJob : ℕ
  attempts : ℕ
  idleFor : ℕ
deriving DecidableEq, Repr

/-- The actor before any message: pipeline absent, no outstanding
work. -/
def actorInit : ActorState := ⟨false, [], 0, 0, 0⟩

/-- The three event sources of the actor loop. -/
inductive Event
  /-- A `Message` is received (line 174); `buildOk` is the outcome the
  external resource construction would have, should this message need
  to start one. -/
  | arrive (buildOk : Bool)
  /-- Worker job `job` finishes and sends its result (`Ok` entities or a
  per-job error) on its request's channel (lines 138-155). -/
  | complete (job : ℕ) (ok : Bool)
  /-- One time unit passes while the actor waits in `wait`. -/
  | tick
deriving DecidableEq, Repr

/-- A reply sent on some request's completion channel, or an eviction. -/
inductive Obs
  /-- Reply `cb.send(Err(e))` of line 125: the construction error, sent to the
  one request that triggered attempt number `attempt`. -/
  | buildFailed (attempt : ℕ)
  /-- A job was handed to the worker pool for the arriving request;
  `cold` is the `cold` span field of line 117 (`pipeline.is_none()`). -/
  | spawned (job : ℕ) (cold : Bool)
  /-- Reply `cb.send` of lines 146/150: the result of job `job`, success or error,
  sent to the request that owns the job. -/
  | jobDone (job : ℕ) (ok : Bool)
  /-- Eviction: `pipeline.take()` dropped a ready pipeline (lines 179-181). -/
  | evicted
deriving DecidableEq, Repr

/-- One iteration of the `select!` loop of lines 172-183.

* `arrive`: `spawn_ner_task` — if the pipeline is absent, construction
  runs first (inline, `attempts + 1`); on failure the error goes to this
  request's channel and no job is spawned; otherwise one job is pushed
  onto the task set.  Receiving a message drops and re-arms `wait`,
  so `idleFor` resets.
* `complete`: `wait`'s drain loop consumes the handle; the job itself
  already sent its reply.  The TTL sleep starts only after the drain,
  so `idleFor` resets.  A completion for an unknown job id cannot occur
  (guarded by `validFrom` below) and is a no-op.
* `tick`: only once the task set is empty does `wait` reach its sleep;
  after `pipelineTTL` uninterrupted units the wait arm fires and
  `pipeline.take()` evicts. -/
def step (s : ActorState) : Event → ActorState × List Obs
  | .arrive ok =>
    let cold := !s.pipeline
    if s.pipeline then
      ({ s with tasks := s.tasks ++ [s.nextJob], nextJob := s.nextJob + 1, idleFor := 0 },
        [.spawned s.nextJob cold])
    else if ok then
      ({ pipeline := true, tasks := s.tasks ++ [s.nextJob], nextJob := s.nextJob + 1,
         attempts := s.attempts + 1, idleFor := 0 }, [.spawned s.nextJob cold])
    else
      ({ s with attempts := s.attempts + 1, idleFor := 0 }, [.buildFailed (s.attempts + 1)])
  | .complete j ok =>
    if s.tasks.contains j then
      ({ s with tasks := s.tasks.erase j, idleFor := 0 }, [.jobDone j ok])
    else (s, [])
  | .tick =>
    if s.tasks.isEmpty then
      if pipelineTTL ≤ s.idleFor + 1 then
        ({ s with pipeline := false, idleFor := 0 }, if s.pipeline then [.evicted] else [])
      else ({ s with idleFor := s.idleFor + 1 }, [])
    else (s, [])

/-- Run the actor over a list of events. -/
def runState (s : ActorState) : List Event → ActorState
  | [] => s
  | e :: es => runState (step s e).1 es

/-- All replies sent while running the actor over a list of events. -/
def runObs (s : ActorState) : List Event → List Obs
  | [] => []
  | e :: es => (step s e).2 ++ runObs (step s e).1 es

/-- An event list is valid from a state when every `complete` names a
job that is outstanding at that moment (worker jobs finish exactly
once). -/
def validFrom (s : ActorState) : List Event → Bool
  | [] => true
  | e :: es =>
    (match e with
     | .complete j _ => s.tasks.contains j
     | _ => true) && validFrom (step s e).1 es

/-- The gRPC status codes that matter at this service's transport
boundary (`tonic::Status`). -/
inductive GrpcCode
  | ok
  | internal
  | unavailable
deriving DecidableEq, Repr

/-- A `tonic::Status`: a code plus a message visible to the caller. -/
structure Status where
  code : GrpcCode
  message : String
deriving DecidableEq, Repr

/-- Type `onnx_bert::Error` (onnx-bert/src/lib.rs lines 171-186) with each
variant's `Display` payload. -/
inductive BertError
  | io (msg : String)
  | download (msg : String)
  | serde (msg : String)
  | onnx (msg : String)
  | tokenizer
  | shape (msg : String)
deriving DecidableEq, Repr

/-- The `thiserror`-derived `Display` of `onnx_bert::Error`: transparent
for every variant except `Tokenizer` ("tokenizer error") and `Shape`
("shape error: {0}"). -/
def BertError.display : BertError → String
  | .io m => m
  | .download m => m
  | .serde m => m
  | .onnx m => m
  | .tokenizer => "tokenizer error"
  | .shape m => "shape error: " ++ m

/-- Type `trast::Error` (trast/src/main.rs lines 90-96): a task `JoinError`
or an `onnx_bert::Error`, both displayed transparently. -/
inductive ActorError
  | join (msg : String)
  | bert (e : BertError)
deriving DecidableEq, Repr

/-- The `thiserror`-derived `Display` of `trast::Error`. -/
def ActorError.display : ActorError → String
  | .join m => m
  | .bert e => e.display

/-- Conversion `From<Error> for Status` (lines 84-88):
`Status::internal(value.to_string())` — the `Internal` code with the
error's display text as the status message. -/
def errorToStatus (e : ActorError) : Status :=
  ⟨.internal, e.display⟩

/-! ## Row-scan lemmas: the arg-max/softmax loop of lines 117-130 -/

theorem expQ_pos (x : ℚ) : 0 < expQ x := by
  unfold expQ
  split
  · linarith
  · have h1 : (0 : ℚ) < 1 - x := by linarith [not_le.1 (by assumption : ¬0 ≤ x)]
    positivity

theorem expQ_strictMono : StrictMono expQ := by
  intro x y hxy
  unfold expQ
  rcases le_or_lt 0 x with hx | hx
  · rw [if_pos hx, if_pos (le_of_lt (lt_of_le_of_lt hx hxy))]
    linarith
  · rw [if_neg (not_le.2 hx)]
    have h1x : (0 : ℚ) < 1 - x := by linarith
    rcases le_or_lt 0 y with hy | hy
    · rw [if_pos hy]
      have : 1 / (1 - x) < 1 := by
        rw [div_lt_one h1x]
        linarith
      linarith
    · rw [if_neg (not_le.2 hy)]
      have h1y : (0 : ℚ) < 1 - y := by linarith
      rw [div_lt_div_iff h1x h1y]
      linarith

theorem f32MIN_neg : f32MIN < 0 := by norm_num [f32MIN]

theorem scanRowAux_sum (fexp : ℚ → ℚ) (l : List ℚ) :
    ∀ (i : ℕ) (acc : RowAcc),
      (scanRowAux fexp i acc l).sum = l.foldl (fun a z => a + fexp z) acc.sum := by
  induction l with
  | nil => intro i acc; rfl
  | cons z rest ih =>
    intro i acc
    simp only [scanRowAux, List.foldl_cons, ih]
    rfl

theorem scanRowAux_best (fexp : ℚ → ℚ) (l : List ℚ) :
    ∀ (i : ℕ) (acc : RowAcc),
      (scanRowAux fexp i acc l).best = l.foldl (fun a z => max a (fexp z)) acc.best := by
  induction l with
  | nil => intro i acc; rfl
  | cons z rest ih =>
    intro i acc
    simp only [scanRowAux, List.foldl_cons, ih]
    congr 1
    simp only [rowStep]
    rcases lt_or_le acc.best (fexp z) with h | h
    · simp [h, max_eq_right h.le]
    · simp [not_lt.2 h, max_eq_left h]

theorem le_foldlMax (fexp : ℚ → ℚ) (l : List ℚ) :
    ∀ a : ℚ, a ≤ l.foldl (fun b w => max b (fexp w)) a := by
  induction l with
  | nil => intro a; exact le_refl a
  | cons z rest ih =>
    intro a
    exact le_trans (le_max_left a (fexp z)) (ih _)

theorem mem_le_foldlMax (fexp : ℚ → ℚ) (l : List ℚ) :
    ∀ (a z : ℚ), z ∈ l → fexp z ≤ l.foldl (fun b w => max b (fexp w)) a := by
  induction l with
  | nil => intro a z hz; cases hz
  | cons w rest ih =>
    intro a z hz
    rcases List.mem_cons.1 hz with h | h
    · subst h
      exact le_trans (le_max_right a (fexp z)) (le_foldlMax fexp rest _)
    · exact ih _ z h

theorem scanRowAux_stay (fexp : ℚ → ℚ) (l : List ℚ) :
    ∀ (i : ℕ) (acc : RowAcc), (∀ z ∈ l, fexp z ≤ acc.best) →
      (scanRowAux fexp i acc l).best = acc.best ∧
      (scanRowAux fexp i acc l).label = acc.label := by
  induction l with
  | nil => intro i acc _; exact ⟨rfl, rfl⟩
  | cons z rest ih =>
    intro i acc h
    have hz : fexp z ≤ acc.best := h z (List.mem_cons_self z rest)
    have hstep : rowStep fexp acc (i, z) =
        ⟨acc.sum + fexp z, acc.best, acc.label⟩ := by
      simp [rowStep, not_lt.2 hz]
    simp only [scanRowAux, hstep]
    exact ih (i + 1) ⟨acc.sum + fexp z, acc.best, acc.label⟩
      fun w hw => h w (List.mem_cons_of_mem z hw)

/-- The arg-max loop invariant: as soon as some element strictly beats
the running maximum, the final label is the absolute index of the first
element attaining the final maximum, and every earlier element is
strictly below it. -/
theorem scanRowAux_argmax (fexp : ℚ → ℚ) (l : List ℚ) :
    ∀ (i : ℕ) (acc : RowAcc), (∃ z ∈ l, acc.best < fexp z) →
      ∃ k, k < l.length ∧
        (scanRowAux fexp i acc l).label = i + k ∧
        (scanRowAux fexp i acc l).best = fexp (l.getD k 0) ∧
        acc.best < fexp (l.getD k 0) ∧
        ∀ j, j < k → fexp (l.getD j 0) < fexp (l.getD k 0) := by
  induction l with
  | nil => intro i acc h; simp at h
  | cons z rest ih =>
    intro i acc h
    rcases lt_or_le acc.best (fexp z) with hcz | hcz
    · have hstep : rowStep fexp acc (i, z) = ⟨acc.sum + fexp z, fexp z, i⟩ := by
        simp [rowStep, hcz]
      by_cases hrest : ∃ w ∈ rest, fexp z < fexp w
      · obtain ⟨k', hk', hlab, hbest, hlt, hprev⟩ :=
          ih (i + 1) ⟨acc.sum + fexp z, fexp z, i⟩ hrest
        refine ⟨k' + 1, by simpa using Nat.succ_lt_succ hk', ?_, ?_, ?_, ?_⟩
        · simp only [scanRowAux, hstep]
          rw [hlab]
          omega
        · simp only [scanRowAux, hstep]
          rw [hbest]
          simp [List.getD_cons_succ]
        · simp only [List.getD_cons_succ]
          exact lt_trans hcz hlt
        · intro j hj
          cases j with
          | zero => simpa [List.getD_cons_zero, List.getD_cons_succ] using hlt
          | succ j' =>
            simp only [List.getD_cons_succ]
            exact hprev j' (by omega)
      · push_neg at hrest
        have hstay := scanRowAux_stay fexp rest (i + 1) ⟨acc.sum + fexp z, fexp z, i⟩
          fun w hw => hrest w hw
        refine ⟨0, by simp, ?_, ?_, ?_, ?_⟩
        · simp only [scanRowAux, hstep]
          rw [hstay.2]
          simp
        · simp only [scanRowAux, hstep, List.getD_cons_zero]
          exact hstay.1
        · simpa [List.getD_cons_zero] using hcz
        · intro j hj
          omega
    · have hstep : rowStep fexp acc (i, z) =
          ⟨acc.sum + fexp z, acc.best, acc.label⟩ := by
        simp [rowStep, not_lt.2 hcz]
      have hrest : ∃ w ∈ rest, acc.best < fexp w := by
        obtain ⟨w, hw, hltw⟩ := h
        rcases List.mem_cons.1 hw with hw0 | hw'
        · exact absurd hltw (by rw [hw0]; exact not_lt.2 hcz)
        · exact ⟨w, hw', hltw⟩
      obtain ⟨k', hk', hlab, hbest, hlt, hprev⟩ :=
        ih (i + 1) ⟨acc.sum + fexp z, acc.best, acc.label⟩ hrest
      refine ⟨k' + 1, by simpa using Nat.succ_lt_succ hk', ?_, ?_, ?_, ?_⟩
      · simp only [scanRowAux, hstep]
        rw [hlab]
        omega
      · simp only [scanRowAux, hstep]
        rw [hbest]
        simp [List.getD_cons_succ]
      · simp only [List.getD_cons_succ]
        exact hlt
      · intro j hj
        cases j with
        | zero =>
          simp only [List.getD_cons_zero, List.getD_cons_succ]
          exact lt_of_le_of_lt hcz hlt
        | succ j' =>
          simp only [List.getD_cons_succ]
          exact hprev j' (by omega)

/-- Characterisation of one row scan under a positive exponential: the
final label indexes the first row entry whose exponential attains the
maximum. -/
theorem scanRow_char (fexp : ℚ → ℚ) (row : List ℚ)
    (hpos : ∀ x, 0 < fexp x) (hne : row ≠ []) :
    rowLabel fexp row < row.length ∧
    (scanRow fexp row).best = fexp (row.getD (rowLabel fexp row) 0) ∧
    (∀ j, j < row.length →
      fexp (row.getD j 0) ≤ fexp (row.getD (rowLabel fexp row) 0)) ∧
    ∀ j, j < rowLabel fexp row →
      fexp (row.getD j 0) < fexp (row.getD (rowLabel fexp row) 0) := by
  have hex : ∃ z ∈ row, (⟨0, f32MIN, 0⟩ : RowAcc).best < fexp z := by
    cases row with
    | nil => exact absurd rfl hne
    | cons z rest =>
      exact ⟨z, List.mem_cons_self z rest, lt_trans f32MIN_neg (hpos z)⟩
  obtain ⟨k, hk, hlab, hbest, _, hprev⟩ := scanRowAux_argmax fexp row 0 ⟨0, f32MIN, 0⟩ hex
  have hlabel : rowLabel fexp row = k := by
    simpa [rowLabel, scanRow] using hlab
  rw [hlabel]
  refine ⟨hk, by simpa [scanRow] using hbest, ?_, hprev⟩
  intro j hj
  have hmem : row.getD j 0 ∈ row := by
    rw [List.getD_eq_get row 0 hj]
    exact row.get_mem _ _
  have hfold := mem_le_foldlMax fexp row f32MIN (row.getD j 0) hmem
  have hbest' : (scanRow fexp row).best =
      row.foldl (fun a z => max a (fexp z)) f32MIN := by
    simpa [scanRow] using scanRowAux_best fexp row 0 ⟨0, f32MIN, 0⟩
  rw [← hbest'] at hfold
  exact le_trans hfold (le_of_eq (by simpa [scanRow] using hbest))

theorem scanRow_sum (fexp : ℚ → ℚ) (row : List ℚ) :
    (scanRow fexp row).sum = sumExp fexp row := by
  simpa [scanRow, sumExp] using scanRowAux_sum fexp row 0 ⟨0, f32MIN, 0⟩

theorem le_foldlAdd (fexp : ℚ → ℚ) (hpos : ∀ x, 0 < fexp x) (l : List ℚ) :
    ∀ a : ℚ, a ≤ l.foldl (fun b z => b + fexp z) a := by
  induction l with
  | nil => intro a; exact le_refl a
  | cons z rest ih =>
    intro a
    exact le_trans (by linarith [hpos z]) (ih (a + fexp z))

theorem sumExp_pos (fexp : ℚ → ℚ) (row : List ℚ)
    (hpos : ∀ x, 0 < fexp x) (hne : row ≠ []) : 0 < sumExp fexp row := by
  cases row with
  | nil => exact absurd rfl hne
  | cons z rest =>
    have : 0 + fexp z ≤ sumExp fexp (z :: rest) := by
      simpa [sumExp] using le_foldlAdd fexp hpos rest (0 + fexp z)
    linarith [hpos z]

theorem softmaxRow_getD (fexp : ℚ → ℚ) (row : List ℚ) (j : ℕ) (hj : j < row.length) :
    (softmaxRow fexp row).getD j 0 = fexp (row.getD j 0) / sumExp fexp row := by
  have hj' : j < (softmaxRow fexp row).length := by simpa [softmaxRow] using hj
  rw [List.getD_eq_get _ 0 hj', List.getD_eq_get row 0 hj]
  simp [softmaxRow]

/-- C10: the arg-max label of a row is chosen by a strict greater-than
comparison scanned left to right (over the exponentials, which any
strictly monotone exponential maps order-faithfully): the chosen label
indexes a maximal score, every earlier label's score is strictly below
it (ties break toward the smallest label id), and in particular when
label 0's score ties with or beats every other score the row is labelled
with the reserved id 0. -/
theorem argmax_first_of_max (fexp : ℚ → ℚ) (row : List ℚ)
    (hmono : StrictMono fexp) (hpos : ∀ x, 0 < fexp x) (hne : row ≠ []) :
    rowLabel fexp row < row.length ∧
    (∀ j, j < row.length → row.getD j 0 ≤ row.getD (rowLabel fexp row) 0) ∧
    (∀ j, j < rowLabel fexp row → row.getD j 0 < row.getD (rowLabel fexp row) 0) ∧
    ((∀ j, j < row.length → row.getD j 0 ≤ row.getD 0 0) → rowLabel fexp row = 0) := by
  obtain ⟨hlen, _, hle, hlt⟩ := scanRow_char fexp row hpos hne
  have hle' : ∀ j, j < row.length →
      row.getD j 0 ≤ row.getD (rowLabel fexp row) 0 :=
    fun j hj => hmono.le_iff_le.1 (hle j hj)
  have hlt' : ∀ j, j < rowLabel fexp row →
      row.getD j 0 < row.getD (rowLabel fexp row) 0 :=
    fun j hj => hmono.lt_iff_lt.1 (hlt j hj)
  refine ⟨hlen, hle', hlt', ?_⟩
  intro hzero
  by_contra hL
  have hpos' : 0 < rowLabel fexp row := Nat.pos_of_ne_zero hL
  have h1 := hlt' 0 hpos'
  have h2 := hzero (rowLabel fexp row) hlen
  exact absurd (lt_of_lt_of_le h1 h2) (lt_irrefl _)

/-- Witness for `argmax_first_of_max` on the row `[0, 1]` with the
concrete exponential `expQ`. -/
theorem argmax_first_of_max_witness :
    rowLabel expQ [0, 1] < ([0, 1] : List ℚ).length ∧
    (∀ j, j < ([0, 1] : List ℚ).length →
      ([0, 1] : List ℚ).getD j 0 ≤ ([0, 1] : List ℚ).getD (rowLabel expQ [0, 1]) 0) ∧
    (∀ j, j < rowLabel expQ [0, 1] →
      ([0, 1] : List ℚ).getD j 0 < ([0, 1] : List ℚ).getD (rowLabel expQ [0, 1]) 0) ∧
    ((∀ j, j < ([0, 1] : List ℚ).length →
      ([0, 1] : List ℚ).getD j 0 ≤ ([0, 1] : List ℚ).getD 0 0) → rowLabel expQ [0, 1] = 0) :=
  argmax_first_of_max expQ [0, 1] expQ_strictMono expQ_pos (by simp)

/-- C2 counterexample: the source never subtracts the row maximum before
exponentiating (line 122 exponentiates the raw score).  Run with the
same positive, strictly monotone exponentiation map `expQ`, the spec's
prescribed subtract-the-max computation (`stableRowScore`) and the
source's computation (`rowScore`) disagree on the row `[1, 2]`: the two
procedures are different computations, coinciding only for an
exponential that turns sums into products. -/
theorem no_max_subtraction :
    stableRowScore expQ [1, 2] = 2 / 3 ∧
    rowScore expQ [1, 2] = 3 / 5 ∧
    stableRowScore expQ [1, 2] ≠ rowScore expQ [1, 2] := by
  refine ⟨?_, ?_, ?_⟩ <;>
    norm_num [stableRowScore, rowMax, rowScore, scanRow, scanRowAux, rowStep, expQ, f32MIN]

/-- C2 (amended): the per-token confidence is computed as
`max(exp z_i) / sum(exp z_i)` with no subtraction of the row maximum;
for every positive exponentiation map, the resulting confidence equals
the mathematical softmax of the row at the chosen label, that value is
the maximum softmax entry, and the chosen label is the least index
attaining it. -/
theorem confidence_is_softmax_max (fexp : ℚ → ℚ) (row : List ℚ)
    (hpos : ∀ x, 0 < fexp x) (hne : row ≠ []) :
    rowLabel fexp row < row.length ∧
    rowScore fexp row = (softmaxRow fexp row).getD (rowLabel fexp row) 0 ∧
    (∀ j, j < row.length →
      (softmaxRow fexp row).getD j 0 ≤ (softmaxRow fexp row).getD (rowLabel fexp row) 0) ∧
    ∀ j, j < rowLabel fexp row →
      (softmaxRow fexp row).getD j 0 < (softmaxRow fexp row).getD (rowLabel fexp row) 0 := by
  obtain ⟨hlen, hbest, hle, hlt⟩ := scanRow_char fexp row hpos hne
  have hS : 0 < sumExp fexp row := sumExp_pos fexp row hpos hne
  refine ⟨hlen, ?_, ?_, ?_⟩
  · rw [rowScore, scanRow_sum, hbest, softmaxRow_getD fexp row _ hlen]
  · intro j hj
    rw [softmaxRow_getD fexp row j hj, softmaxRow_getD fexp row _ hlen]
    exact (div_le_div_iff_of_pos_right hS).2 (hle j hj)
  · intro j hj
    rw [softmaxRow_getD fexp row j (lt_trans hj hlen), softmaxRow_getD fexp row _ hlen]
    exact (div_lt_div_iff_of_pos_right hS).2 (hlt j hj)

/-- Witness for `confidence_is_softmax_max` on the row `[0, 1]` with the
concrete exponential `expQ`. -/
theorem confidence_is_softmax_max_witness :
    rowLabel expQ [0, 1] < ([0, 1] : List ℚ).length ∧
    rowScore expQ [0, 1] = (softmaxRow expQ [0, 1]).getD (rowLabel expQ [0, 1]) 0 ∧
    (∀ j, j < ([0, 1] : List ℚ).length →
      (softmaxRow expQ [0, 1]).getD j 0
        ≤ (softmaxRow expQ [0, 1]).getD (rowLabel expQ [0, 1]) 0) ∧
    ∀ j, j < rowLabel expQ [0, 1] →
      (softmaxRow expQ [0, 1]).getD j 0
        < (softmaxRow expQ [0, 1]).getD (rowLabel expQ [0, 1]) 0 :=
  confidence_is_softmax_max expQ [0, 1] expQ_pos (by simp)

/-! ## Span-accumulation lemmas: the merge loop of lines 133-146 -/

theorem foldl_extendOrPush (rs : List RawEntity) :
    ∀ (c : List RawEntity) (p : RawEntity),
      rs.foldl extendOrPush (c ++ [p]) =
        (rs.foldl stepSpan (c, some p)).1 ++ (rs.foldl stepSpan (c, some p)).2.toList := by
  induction rs with
  | nil => intro c p; rfl
  | cons r rs ih =>
    intro c p
    simp only [List.foldl_cons]
    have heop : extendOrPush (c ++ [p]) r =
        if p.label = r.label then c ++ [merge2 p r] else (c ++ [p]) ++ [r] := by
      simp [extendOrPush, List.getLast?_concat, List.dropLast_concat]
    by_cases hlab : p.label = r.label
    · rw [heop, if_pos hlab, ih c (merge2 p r)]
      have : stepSpan (c, some p) r = (c, some (merge2 p r)) := by
        simp [stepSpan, hlab]
      rw [this]
    · rw [heop, if_neg hlab, ih (c ++ [p]) r]
      have : stepSpan (c, some p) r = (c ++ [p], some r) := by
        simp [stepSpan, hlab]
      rw [this]

theorem spans_eq_parts (rs : List RawEntity) :
    spans rs = (rs.foldl stepSpan ([], none)).1 ++ (rs.foldl stepSpan ([], none)).2.toList := by
  cases rs with
  | nil => rfl
  | cons r rs =>
    have h1 : extendOrPush [] r = [] ++ [r] := by simp [extendOrPush]
    have h2 : stepSpan ([], none) r = ([], some r) := rfl
    simp only [spans, List.foldl_cons, h1, h2]
    exact foldl_extendOrPush rs [] r

theorem foldl_stepSpan_closed (rs : List RawEntity) :
    ∀ (c : List RawEntity) (u : Option RawEntity),
      rs.foldl stepSpan (c, u) =
        (c ++ (rs.foldl stepSpan ([], u)).1, (rs.foldl stepSpan ([], u)).2) := by
  induction rs with
  | nil => intro c u; simp
  | cons r rs ih =>
    intro c u
    simp only [List.foldl_cons]
    rcases u with _ | prev
    · have h1 : stepSpan (c, none) r = (c, some r) := rfl
      have h2 : stepSpan (([] : List RawEntity), none) r = ([], some r) := rfl
      rw [h1, h2, ih c (some r)]
    · by_cases hlab : prev.label = r.label
      · have h1 : stepSpan (c, some prev) r = (c, some (merge2 prev r)) := by
          simp [stepSpan, hlab]
        have h2 : stepSpan (([] : List RawEntity), some prev) r =
            ([], some (merge2 prev r)) := by
          simp [stepSpan, hlab]
        rw [h1, h2, ih c (some (merge2 prev r))]
      · have h1 : stepSpan (c, some prev) r = (c ++ [prev], some r) := by
          simp [stepSpan, hlab]
        have h2 : stepSpan (([] : List RawEntity), some prev) r = ([prev], some r) := by
          simp [stepSpan, hlab]
        rw [h1, h2, ih (c ++ [prev]) (some r), ih [prev] (some r)]
        simp

theorem foldl_stepSpan_run (run : List RawEntity) :
    ∀ (c : List RawEntity) (p : RawEntity), (∀ r ∈ run, r.label = p.label) →
      run.foldl stepSpan (c, some p) = (c, some (run.foldl merge2 p)) := by
  induction run with
  | nil => intro c p _; rfl
  | cons r run ih =>
    intro c p h
    have hr : r.label = p.label := h r (List.mem_cons_self r run)
    have h1 : stepSpan (c, some p) r = (c, some (merge2 p r)) := by
      simp [stepSpan, hr.symm]
    simp only [List.foldl_cons, h1]
    exact ih c (merge2 p r) fun r' hr' => h r' (List.mem_cons_of_mem r hr')

theorem foldl_merge2_label (l : List RawEntity) :
    ∀ p : RawEntity, (l.foldl merge2 p).label = p.label := by
  induction l with
  | nil => intro p; rfl
  | cons r l ih => intro p; simp only [List.foldl_cons]; rw [ih]; rfl

theorem foldl_stepSpan_isSome (rs : List RawEntity) :
    ∀ (c : List RawEntity) (p : RawEntity),
      (rs.foldl stepSpan (c, some p)).2.isSome := by
  induction rs with
  | nil => intro c p; rfl
  | cons r rs ih =>
    intro c p
    simp only [List.foldl_cons, stepSpan]
    by_cases hlab : p.label = r.label
    · rw [if_pos hlab]; exact ih c (merge2 p r)
    · rw [if_neg hlab]; exact ih (c ++ [p]) r

theorem foldl_stepSpan_openLabel (rs : List RawEntity) :
    ∀ (st : List RawEntity × Option RawEntity) (q lastr : RawEntity),
      rs.getLast? = some lastr → (rs.foldl stepSpan st).2 = some q →
        q.label = lastr.label := by
  induction rs with
  | nil => intro st q lastr h; simp at h
  | cons r rs ih =>
    intro st q lastr hgl hfold
    cases rs with
    | nil =>
      have hr : lastr = r := by simpa using hgl.symm
      subst hr
      rcases st with ⟨c, _ | prev⟩
      · simp only [List.foldl_cons, List.foldl_nil] at hfold
        have : lastr = q := by
          have h1 : stepSpan (c, none) lastr = (c, some lastr) := rfl
          rw [h1] at hfold
          simpa using hfold
        rw [← this]
      · simp only [List.foldl_cons, List.foldl_nil, stepSpan] at hfold
        by_cases hlab : prev.label = lastr.label
        · rw [if_pos hlab] at hfold
          have : merge2 prev lastr = q := by simpa using hfold
          rw [← this]
          exact hlab
        · rw [if_neg hlab] at hfold
          have : lastr = q := by simpa using hfold
          rw [← this]
    | cons r' rs' =>
      have hgl' : (r' :: rs').getLast? = some lastr := by
        simpa [List.getLast?_cons_cons] using hgl
      exact ih (stepSpan st r) q lastr hgl' hfold

/-- The core structure theorem of the merge loop: a maximal run of
same-label records, bounded on the left by a record of a different label
(or the start) and on the right likewise, becomes exactly one merged
raw span sitting between the spans of the prefix and of the suffix. -/
theorem spans_run_decomp (pre : List RawEntity) (r0 : RawEntity)
    (run' : List RawEntity) (post : List RawEntity)
    (hrun : ∀ r ∈ run', r.label = r0.label)
    (hpre : ∀ p, pre.getLast? = some p → p.label ≠ r0.label)
    (hpost : ∀ q, post.head? = some q → q.label ≠ r0.label) :
    spans (pre ++ (r0 :: run') ++ post) =
      spans pre ++ (run'.foldl merge2 r0) :: spans post := by
  have hA : (pre.foldl stepSpan ([], none)).1 ++
      ((pre.foldl stepSpan ([], none)).2).toList = spans pre := (spans_eq_parts pre).symm
  have hstep0 : stepSpan (pre.foldl stepSpan ([], none)) r0 = (spans pre, some r0) := by
    cases pre with
    | nil => simp [stepSpan, spans]
    | cons p0 pre' =>
      have hsome : ((p0 :: pre').foldl stepSpan ([], none)).2.isSome := by
        have h1 : stepSpan (([] : List RawEntity), none) p0 = ([], some p0) := rfl
        simpa only [List.foldl_cons, h1] using foldl_stepSpan_isSome pre' [] p0
      obtain ⟨u, hu⟩ := Option.isSome_iff_exists.1 hsome
      have hlastne : (p0 :: pre').getLast? = some ((p0 :: pre').getLast (by simp)) :=
        List.getLast?_eq_getLast _ _
      have hulab : u.label = ((p0 :: pre').getLast (by simp)).label :=
        foldl_stepSpan_openLabel (p0 :: pre') ([], none) u _ hlastne hu
      have hune : u.label ≠ r0.label := by
        rw [hulab]
        exact hpre _ hlastne
      obtain ⟨c, hc⟩ : ∃ c, (p0 :: pre').foldl stepSpan ([], none) = (c, some u) :=
        ⟨((p0 :: pre').foldl stepSpan ([], none)).1, by
          rw [← hu]⟩
      rw [hc]
      have : stepSpan (c, some u) r0 = (c ++ [u], some r0) := by
        simp [stepSpan, hune]
      rw [this]
      have : spans (p0 :: pre') = c ++ [u] := by
        rw [spans_eq_parts, hc]
        simp
      rw [this]
  have hfold : (pre ++ (r0 :: run') ++ post).foldl stepSpan ([], none) =
      post.foldl stepSpan (spans pre, some (run'.foldl merge2 r0)) := by
    rw [List.foldl_append, List.foldl_append, List.foldl_cons, hstep0]
    rw [foldl_stepSpan_run run' (spans pre) r0 hrun]
  rw [spans_eq_parts, hfold]
  cases post with
  | nil =>
    simp [spans]
  | cons q post' =>
    have hqlab : q.label ≠ (run'.foldl merge2 r0).label := by
      rw [foldl_merge2_label]
      exact hpost q rfl
    have hstepq : stepSpan (spans pre, some (run'.foldl merge2 r0)) q =
        (spans pre ++ [run'.foldl merge2 r0], some q) := by
      have : ¬(run'.foldl merge2 r0).label = q.label := fun h => hqlab h.symm
      simp [stepSpan, this]
    rw [List.foldl_cons, hstepq,
      foldl_stepSpan_closed post' (spans pre ++ [run'.foldl merge2 r0]) (some q)]
    have hpostspans : spans (q :: post') =
        (post'.foldl stepSpan ([], some q)).1 ++
          (post'.foldl stepSpan ([], some q)).2.toList := by
      rw [spans_eq_parts]
      have : stepSpan (([] : List RawEntity), none) q = ([], some q) := rfl
      simp only [List.foldl_cons, this]
    rw [hpostspans]
    simp

/-! ## Records and finalize lemmas -/

theorem records_cons (fexp : ℚ → ℚ) (row : List ℚ) (rows : List (List ℚ))
    (off : ℕ × ℕ) (offs : List (ℕ × ℕ)) :
    records fexp (row :: rows) (off :: offs) =
      tokenRecord fexp row off :: records fexp rows offs := rfl

theorem records_append (fexp : ℚ → ℚ) (xs : List (List ℚ)) :
    ∀ (ys : List (List ℚ)) (as bs : List (ℕ × ℕ)), xs.length = as.length →
      records fexp (xs ++ ys) (as ++ bs) = records fexp xs as ++ records fexp ys bs := by
  induction xs with
  | nil =>
    intro ys as bs h
    have : as = [] := by simpa using h.symm
    subst this
    simp [records]
  | cons x xs ih =>
    intro ys as bs h
    cases as with
    | nil => simp at h
    | cons a as =>
      simp only [List.cons_append, records_cons]
      rw [ih ys as bs (by simpa using h)]

theorem records_getLast_label (fexp : ℚ → ℚ) (rows : List (List ℚ)) :
    ∀ (offs : List (ℕ × ℕ)) (L : ℕ), rows.length = offs.length →
      (∀ row, rows.getLast? = some row → rowLabel fexp row ≠ L) →
      ∀ p, (records fexp rows offs).getLast? = some p → p.label ≠ L := by
  induction rows with
  | nil => intro offs L _ _ p hp; simp [records] at hp
  | cons row rows ih =>
    intro offs L hlen hrows p hp
    cases offs with
    | nil => simp at hlen
    | cons off offs =>
      cases rows with
      | nil =>
        have : offs = [] := by simpa using hlen.symm
        subst this
        have : tokenRecord fexp row off = p := by
          simpa [records_cons, records] using hp
        rw [← this]
        exact hrows row rfl
      | cons row' rows' =>
        cases offs with
        | nil => simp at hlen
        | cons off' offs' =>
          have hp' : (records fexp (row' :: rows') (off' :: offs')).getLast? = some p := by
            simpa only [records_cons, List.getLast?_cons_cons] using hp
          exact ih (off' :: offs') L (by simpa using hlen)
            (fun r hr => hrows r (by simpa [List.getLast?_cons_cons] using hr)) p hp'

theorem records_head_label (fexp : ℚ → ℚ) (rows : List (List ℚ))
    (offs : List (ℕ × ℕ)) (q : RawEntity)
    (hq : (records fexp rows offs).head? = some q) :
    ∃ row, rows.head? = some row ∧ q.label = rowLabel fexp row := by
  cases rows with
  | nil => simp [records] at hq
  | cons row rows =>
    cases offs with
    | nil => simp [records] at hq
    | cons off offs =>
      refine ⟨row, rfl, ?_⟩
      have : q = tokenRecord fexp row off := by
        simpa [records_cons] using hq.symm
      rw [this]
      rfl

theorem records_label_mem (fexp : ℚ → ℚ) (rows : List (List ℚ))
    (offs : List (ℕ × ℕ)) (r : RawEntity) (hr : r ∈ records fexp rows offs) :
    ∃ row ∈ rows, r.label = rowLabel fexp row := by
  simp only [records, List.mem_map] at hr
  obtain ⟨p, hp, hrp⟩ := hr
  exact ⟨p.1, (List.of_mem_zip hp).1, by rw [← hrp]; rfl⟩

theorem foldl_merge2_records (fexp : ℚ → ℚ) (rs : List (List ℚ)) :
    ∀ (os : List (ℕ × ℕ)) (seed : RawEntity), rs.length = os.length →
      (records fexp rs os).foldl merge2 seed =
        ⟨seed.label, (rs.map (rowScore fexp)).foldl max seed.score,
         (os.map Prod.fst).foldl min seed.start,
         (os.map Prod.snd).foldl max seed.stop⟩ := by
  induction rs with
  | nil =>
    intro os seed h
    have : os = [] := by simpa using h.symm
    subst this
    simp [records]
  | cons r rs ih =>
    intro os seed h
    cases os with
    | nil => simp at h
    | cons o os =>
      simp only [records_cons, List.foldl_cons, List.map_cons]
      rw [ih os (merge2 seed (tokenRecord fexp r o)) (by simpa using h)]
      rfl

theorem mapOpt_append (f : α → Option β) (l₁ : List α) :
    ∀ l₂ : List α, mapOpt f (l₁ ++ l₂) =
      (mapOpt f l₁).bind fun a => (mapOpt f l₂).map (a ++ ·) := by
  induction l₁ with
  | nil =>
    intro l₂
    simp only [List.nil_append, mapOpt, Option.bind_eq_bind, Option.some_bind]
    cases mapOpt f l₂ <;> simp
  | cons a l ih =>
    intro l₂
    simp only [List.cons_append, mapOpt, List.append_eq]
    rw [ih l₂]
    cases hfa : f a with
    | none => simp
    | some b =>
      cases hml : mapOpt f l with
      | none => simp
      | some as =>
        cases hml2 : mapOpt f l₂ with
        | none => simp
        | some bs => simp [mapOpt]

theorem finalize_append (id2label : ℕ → Option String) (s : List ℕ)
    (l₁ l₂ : List RawEntity) :
    finalize id2label s (l₁ ++ l₂) =
      (finalize id2label s l₁).bind fun a => (finalize id2label s l₂).map (a ++ ·) := by
  simp only [finalize, List.filter_append]
  exact mapOpt_append (toEntity id2label s) _ _

theorem finalize_single (id2label : ℕ → Option String) (s : List ℕ)
    (r : RawEntity) (e : Entity) (hf : entityFilter r = true)
    (he : toEntity id2label s r = some e) :
    finalize id2label s [r] = some [e] := by
  simp [finalize, List.filter_cons, hf, mapOpt, he]

theorem mapOpt_mem (f : α → Option β) (l : List α) :
    ∀ bs : List β, mapOpt f l = some bs → ∀ b ∈ bs, ∃ a ∈ l, f a = some b := by
  induction l with
  | nil =>
    intro bs h b hb
    simp only [mapOpt, Option.some.injEq] at h
    subst h
    cases hb
  | cons a l ih =>
    intro bs h b hb
    simp only [mapOpt] at h
    cases hfa : f a with
    | none => rw [hfa] at h; cases h
    | some b' =>
      rw [hfa] at h
      cases hml : mapOpt f l with
      | none => rw [hml] at h; cases h
      | some bs' =>
        rw [hml] at h
        have : b' :: bs' = bs := by simpa using h
        subst this
        rcases List.mem_cons.1 hb with hbb | hbb
        · exact ⟨a, List.mem_cons_self a l, by rw [hfa, hbb]⟩
        · obtain ⟨a', ha', hfa'⟩ := ih bs' hml b hbb
          exact ⟨a', List.mem_cons_of_mem a ha', hfa'⟩

theorem isCharBoundary_le (s : List ℕ) (i : ℕ) (h : isCharBoundary s i = true) :
    i ≤ s.length := by
  simp only [isCharBoundary, Bool.or_eq_true, Bool.and_eq_true, beq_iff_eq,
    decide_eq_true_eq] at h
  rcases h with (h | h) | h
  · omega
  · omega
  · exact le_of_lt h.1

theorem sliceBytes_some (s : List ℕ) (a b : ℕ) (w : List ℕ)
    (h : sliceBytes s a b = some w) :
    a ≤ b ∧ b ≤ s.length ∧ w = (s.drop a).take (b - a) := by
  simp only [sliceBytes] at h
  split at h
  · rename_i hcond
    exact ⟨hcond.1, isCharBoundary_le s b hcond.2.2, by simpa using h.symm⟩
  · cases h

/-- Every raw span produced by the merge loop carries the label of some
input record. -/
theorem spans_label_zero (rs : List RawEntity) (h : ∀ r ∈ rs, r.label = 0) :
    ∀ p ∈ spans rs, p.label = 0 := by
  have main : ∀ (l : List RawEntity) (st : List RawEntity × Option RawEntity),
      (∀ r ∈ l, r.label = 0) → (∀ x ∈ st.1, x.label = 0) →
      (∀ p, st.2 = some p → p.label = 0) →
      (∀ x ∈ (l.foldl stepSpan st).1, x.label = 0) ∧
      (∀ p, (l.foldl stepSpan st).2 = some p → p.label = 0) := by
    intro l
    induction l with
    | nil => intro st _ h1 h2; exact ⟨h1, h2⟩
    | cons r l ihl =>
      intro st hl h1 h2
      have hr : r.label = 0 := hl r (List.mem_cons_self r l)
      have hl' : ∀ r' ∈ l, r'.label = 0 := fun r' hr' => hl r' (List.mem_cons_of_mem r hr')
      rcases st with ⟨c, _ | prev⟩
      · exact ihl (c, some r) hl' h1 (fun p hp => by
          rw [show p = r by simpa using hp.symm]; exact hr)
      · simp only [List.foldl_cons, stepSpan]
        by_cases hlab : prev.label = r.label
        · rw [if_pos hlab]
          exact ihl (c, some (merge2 prev r)) hl' h1 (fun p hp => by
            rw [show p = merge2 prev r by simpa using hp.symm]
            show prev.label = 0
            exact h2 prev rfl)
        · rw [if_neg hlab]
          refine ihl (c ++ [prev], some r) hl' ?_ (fun p hp => by
            rw [show p = r by simpa using hp.symm]; exact hr)
          intro x hx
          rcases List.mem_append.1 hx with hx | hx
          · exact h1 x hx
          · rw [show x = prev by simpa using hx]
            exact h2 prev rfl
  intro p hp
  rw [spans_eq_parts] at hp
  have := main rs ([], none) h (by simp) (by simp)
  rcases List.mem_append.1 hp with hp | hp
  · exact this.1 p hp
  · rcases hcase : (rs.foldl stepSpan ([], none)).2 with _ | q
    · rw [hcase] at hp; cases hp
    · rw [hcase] at hp
      rw [show p = q by simpa using hp]
      exact this.2 q hcase

/-- C8: when every row's arg-max is the reserved label 0, extraction
returns the empty entity list (every merged span carries label 0 and is
dropped by the `label != 0` filter). -/
theorem all_reserved_yields_empty (fexp : ℚ → ℚ) (id2label : ℕ → Option String)
    (sentence : List ℕ) (offsets : List (ℕ × ℕ)) (logits : List (List ℚ))
    (h : ∀ row ∈ logits, rowLabel fexp row = 0) :
    predictEntities fexp id2label sentence offsets logits = some [] := by
  have hrec : ∀ r ∈ records fexp logits offsets, r.label = 0 := by
    intro r hr
    obtain ⟨row, hrow, hlab⟩ := records_label_mem fexp logits offsets r hr
    rw [hlab]
    exact h row hrow
  have hspans := spans_label_zero (records fexp logits offsets) hrec
  have hfilter : (spans (records fexp logits offsets)).filter entityFilter = [] := by
    rw [List.filter_eq_nil]
    intro p hp
    simp [entityFilter, hspans p hp]
  rw [predictEntities, finalize, hfilter]
  rfl

/-- Witness for `all_reserved_yields_empty`: a one-token sentence whose
row arg-max is the reserved label. -/
theorem all_reserved_yields_empty_witness :
    predictEntities expQ exampleId2label [65] [(0, 1)] [[3, 1]] = some [] := by
  refine all_reserved_yields_empty expQ exampleId2label [65] [(0, 1)] [[3, 1]] ?_
  intro row hrow
  rw [show row = [3, 1] by simpa using hrow]
  norm_num [rowLabel, scanRow, scanRowAux, rowStep, expQ, f32MIN]

/-- C3: every entity the extractor returns has `start < end`, offsets
within the sentence (its `end` at most the byte length), its word equal
to the sentence slice `[start, end)`, and a label string resolved from a
non-reserved label id. -/
theorem entity_invariants (fexp : ℚ → ℚ) (id2label : ℕ → Option String)
    (sentence : List ℕ) (offsets : List (ℕ × ℕ)) (logits : List (List ℚ))
    (es : List Entity)
    (h : predictEntities fexp id2label sentence offsets logits = some es) :
    ∀ e ∈ es, e.start < e.stop ∧ e.stop ≤ sentence.length ∧
      sliceBytes sentence e.start e.stop = some e.word ∧
      ∃ l, l ≠ 0 ∧ id2label l = some e.label := by
  intro e he
  rw [predictEntities, finalize] at h
  obtain ⟨r, hrmem, hre⟩ := mapOpt_mem (toEntity id2label sentence) _ es h e he
  have hfilt : entityFilter r = true := (List.mem_filter.1 hrmem).2
  have hfilt' : r.label ≠ 0 ∧ r.start < r.stop := by
    simpa [entityFilter] using hfilt
  rw [toEntity] at hre
  cases hid : id2label r.label with
  | none => rw [hid] at hre; cases hre
  | some lbl =>
    rw [hid] at hre
    cases hsl : sliceBytes sentence r.start r.stop with
    | none => rw [hsl] at hre; cases hre
    | some w =>
      rw [hsl] at hre
      have he' : e = ⟨lbl, r.score, w, r.start, r.stop⟩ := by simpa using hre.symm
      subst he'
      obtain ⟨_, hble, _⟩ := sliceBytes_some sentence r.start r.stop w hsl
      exact ⟨hfilt'.2, hble, hsl, r.label, hfilt'.1, hid⟩

/-- Witness for `entity_invariants`: the sentence "AB" with one token
spanning its two bytes and a row whose arg-max is label 1. -/
theorem entity_invariants_witness :
    (⟨"ORG", 6 / 7, [65, 66], 0, 2⟩ : Entity).start
        < (⟨"ORG", 6 / 7, [65, 66], 0, 2⟩ : Entity).stop ∧
    (⟨"ORG", 6 / 7, [65, 66], 0, 2⟩ : Entity).stop ≤ ([65, 66] : List ℕ).length ∧
    sliceBytes [65, 66] (⟨"ORG", 6 / 7, [65, 66], 0, 2⟩ : Entity).start
        (⟨"ORG", 6 / 7, [65, 66], 0, 2⟩ : Entity).stop
      = some (⟨"ORG", 6 / 7, [65, 66], 0, 2⟩ : Entity).word ∧
    ∃ l, l ≠ 0 ∧ exampleId2label l = some (⟨"ORG", 6 / 7, [65, 66], 0, 2⟩ : Entity).label := by
  have h : predictEntities expQ exampleId2label [65, 66] [(0, 2)] [[0, 5]] =
      some [⟨"ORG", 6 / 7, [65, 66], 0, 2⟩] := by
    norm_num [predictEntities, finalize, mapOpt, toEntity, sliceBytes, isCharBoundary,
      spans, extendOrPush, records, tokenRecord, rowLabel, rowScore, scanRow, scanRowAux,
      rowStep, expQ, f32MIN, entityFilter, exampleId2label, merge2, List.filter]
  exact entity_invariants expQ exampleId2label [65, 66] [(0, 2)] [[0, 5]] _ h
    ⟨"ORG", 6 / 7, [65, 66], 0, 2⟩ (by simp)

/-- C1 counterexample: a run of N = 1 token whose arg-max label 1 is
non-reserved, with no adjacent token at all, whose token spans the empty
byte range `(0, 0)` (as BERT special tokens do).  The claim requires
exactly one entity for this run — `start` the first token's start,
`end` the last token's end, score the softmax confidence `6/7` — but the
extractor's `e.end > e.start` filter (line 150) drops the span and
returns no entity. -/
theorem degenerate_run_yields_no_entity :
    predictEntities expQ exampleId2label [65] [(0, 0)] [[0, 5]] = some [] ∧
    predictEntities expQ exampleId2label [65] [(0, 0)] [[0, 5]] ≠
      some [⟨"ORG", 6 / 7, [], 0, 0⟩] := by
  have h : predictEntities expQ exampleId2label [65] [(0, 0)] [[0, 5]] = some [] := by
    norm_num [predictEntities, finalize, mapOpt, toEntity, sliceBytes, isCharBoundary,
      spans, extendOrPush, records, tokenRecord, rowLabel, rowScore, scanRow, scanRowAux,
      rowStep, expQ, f32MIN, entityFilter, exampleId2label, merge2, List.filter]
  refine ⟨h, ?_⟩
  rw [h]
  simp

/-- C1 (amended): a maximal run of consecutive tokens sharing the same
non-reserved arg-max label `L` (the adjacent tokens on either side, when
present, have a different arg-max label) is extracted as exactly one
entity, inserted between the entities of the prefix and of the suffix.
Its score is the maximum per-token softmax confidence over the run, its
start the minimum token start and its end the maximum token end (for
tokenizer offsets in increasing order these are the first token's start
and the last token's end), provided the merged span is non-degenerate
(min start < max end — otherwise the `end > start` filter drops it) and
label `L` is present in the id-to-label map. -/
theorem run_merges_to_one_entity (fexp : ℚ → ℚ) (id2label : ℕ → Option String)
    (sentence : List ℕ)
    (rpre rpost : List (List ℚ)) (opre opost : List (ℕ × ℕ))
    (r0 : List ℚ) (rs : List (List ℚ)) (o0 : ℕ × ℕ) (os : List (ℕ × ℕ))
    (L : ℕ) (lbl : String) (w : List ℕ)
    (hL : L ≠ 0)
    (hlen1 : rpre.length = opre.length) (hlen2 : rs.length = os.length)
    (hr0 : rowLabel fexp r0 = L)
    (hrs : ∀ row ∈ rs, rowLabel fexp row = L)
    (hpre : ∀ row, rpre.getLast? = some row → rowLabel fexp row ≠ L)
    (hpost : ∀ row, rpost.head? = some row → rowLabel fexp row ≠ L)
    (hlbl : id2label L = some lbl)
    (hw : sliceBytes sentence ((os.map Prod.fst).foldl min o0.1)
      ((os.map Prod.snd).foldl max o0.2) = some w)
    (hdeg : (os.map Prod.fst).foldl min o0.1 < (os.map Prod.snd).foldl max o0.2) :
    predictEntities fexp id2label sentence (opre ++ (o0 :: os) ++ opost)
        (rpre ++ (r0 :: rs) ++ rpost) =
      (finalize id2label sentence (spans (records fexp rpre opre))).bind fun A =>
        (finalize id2label sentence (spans (records fexp rpost opost))).map fun B =>
          A ++ ⟨lbl, (rs.map (rowScore fexp)).foldl max (rowScore fexp r0), w,
            (os.map Prod.fst).foldl min o0.1,
            (os.map Prod.snd).foldl max o0.2⟩ :: B := by
  have htok : (tokenRecord fexp r0 o0).label = L := by
    rw [show (tokenRecord fexp r0 o0).label = rowLabel fexp r0 from rfl, hr0]
  have hrec : records fexp (rpre ++ (r0 :: rs) ++ rpost) (opre ++ (o0 :: os) ++ opost)
      = records fexp rpre opre ++ (tokenRecord fexp r0 o0 :: records fexp rs os)
        ++ records fexp rpost opost := by
    rw [records_append fexp (rpre ++ (r0 :: rs)) rpost (opre ++ (o0 :: os)) opost
      (by simp [hlen1, hlen2]),
      records_append fexp rpre (r0 :: rs) opre (o0 :: os) hlen1, records_cons]
  have hspans : spans (records fexp rpre opre
        ++ (tokenRecord fexp r0 o0 :: records fexp rs os) ++ records fexp rpost opost)
      = spans (records fexp rpre opre)
        ++ ((records fexp rs os).foldl merge2 (tokenRecord fexp r0 o0))
          :: spans (records fexp rpost opost) := by
    apply spans_run_decomp
    · intro r hr
      obtain ⟨row, hrow, hlab⟩ := records_label_mem fexp rs os r hr
      rw [hlab, hrs row hrow, htok]
    · intro p hp
      rw [htok]
      exact records_getLast_label fexp rpre opre L hlen1 hpre p hp
    · intro q hq
      obtain ⟨row, hrow, hlab⟩ := records_head_label fexp rpost opost q hq
      rw [htok, hlab]
      exact hpost row hrow
  have hM : (records fexp rs os).foldl merge2 (tokenRecord fexp r0 o0)
      = ⟨L, (rs.map (rowScore fexp)).foldl max (rowScore fexp r0),
          (os.map Prod.fst).foldl min o0.1, (os.map Prod.snd).foldl max o0.2⟩ := by
    rw [foldl_merge2_records fexp rs os (tokenRecord fexp r0 o0) hlen2]
    rw [show (tokenRecord fexp r0 o0) = ⟨rowLabel fexp r0, rowScore fexp r0, o0.1, o0.2⟩
      from rfl]
    rw [hr0]
  have hE : finalize id2label sentence
      [⟨L, (rs.map (rowScore fexp)).foldl max (rowScore fexp r0),
        (os.map Prod.fst).foldl min o0.1, (os.map Prod.snd).foldl max o0.2⟩]
      = some [⟨lbl, (rs.map (rowScore fexp)).foldl max (rowScore fexp r0), w,
          (os.map Prod.fst).foldl min o0.1, (os.map Prod.snd).foldl max o0.2⟩] := by
    apply finalize_single
    · simp [entityFilter, hL, hdeg]
    · simp only [toEntity]
      rw [hlbl, hw]
  rw [predictEntities, hrec, hspans, hM]
  rw [show spans (records fexp rpre opre)
      ++ (⟨L, (rs.map (rowScore fexp)).foldl max (rowScore fexp r0),
          (os.map Prod.fst).foldl min o0.1,
          (os.map Prod.snd).foldl max o0.2⟩ : RawEntity)
        :: spans (records fexp rpost opost)
      = spans (records fexp rpre opre)
        ++ ([⟨L, (rs.map (rowScore fexp)).foldl max (rowScore fexp r0),
            (os.map Prod.fst).foldl min o0.1,
            (os.map Prod.snd).foldl max o0.2⟩]
          ++ spans (records fexp rpost opost)) from by simp]
  rw [finalize_append, finalize_append, hE]
  cases finalize id2label sentence (spans (records fexp rpre opre)) with
  | none => simp
  | some A =>
    cases finalize id2label sentence (spans (records fexp rpost opost)) with
    | none => simp
    | some B => simp

/-- Witness for `run_merges_to_one_entity`: the whole input is one run
of two tokens, both arg-max label 1, spanning bytes 0-1 and 1-2 of the
sentence "AB". -/
theorem run_merges_to_one_entity_witness :
    predictEntities expQ exampleId2label [65, 66] ([] ++ ((0, 1) :: [(1, 2)]) ++ [])
        ([] ++ ([0, 5] :: [[1, 6]]) ++ []) =
      (finalize exampleId2label [65, 66] (spans (records expQ [] []))).bind fun A =>
        (finalize exampleId2label [65, 66] (spans (records expQ [] []))).map fun B =>
          A ++ ⟨"ORG", ([[1, 6]].map (rowScore expQ)).foldl max (rowScore expQ [0, 5]),
            [65, 66], ([(1, 2)].map Prod.fst).foldl min (0, 1).1,
            ([(1, 2)].map Prod.snd).foldl max (0, 1).2⟩ :: B := by
  refine run_merges_to_one_entity expQ exampleId2label [65, 66] [] [] [] []
    [0, 5] [[1, 6]] (0, 1) [(1, 2)] 1 ("ORG") [65, 66]
    (by decide) rfl rfl ?_ ?_ ?_ ?_ rfl (by decide) (by decide)
  · norm_num [rowLabel, scanRow, scanRowAux, rowStep, expQ, f32MIN]
  · intro row hrow
    rw [show row = [1, 6] by simpa using hrow]
    norm_num [rowLabel, scanRow, scanRowAux, rowStep, expQ, f32MIN]
  · intro row hrow
    simp at hrow
  · intro row hrow
    simp at hrow

/-! ## Actor lemmas -/

theorem runState_append (s : ActorState) (es₁ es₂ : List Event) :
    runState s (es₁ ++ es₂) = runState (runState s es₁) es₂ := by
  induction es₁ generalizing s with
  | nil => rfl
  | cons e es ih => simp [runState, ih]

theorem validFrom_append (s : ActorState) (es₁ es₂ : List Event) :
    validFrom s (es₁ ++ es₂) = (validFrom s es₁ && validFrom (runState s es₁) es₂) := by
  induction es₁ generalizing s with
  | nil => simp [validFrom, runState]
  | cons e es ih =>
    cases e <;> simp [validFrom, runState, ih, Bool.and_assoc]

/-- Processing any number of messages while the pipeline is ready starts
no construction attempt, keeps the pipeline ready, and replies to each
request by handing it a worker job. -/
theorem warmRun (bs : List Bool) (t : ActorState) (ht : t.pipeline = true) :
    (runState t (bs.map .arrive)).pipeline = true ∧
    (runState t (bs.map .arrive)).attempts = t.attempts ∧
    (runObs t (bs.map .arrive)).length = bs.length ∧
    ∀ o ∈ runObs t (bs.map .arrive), ∃ j c, o = .spawned j c := by
  induction bs generalizing t with
  | nil => simp [runState, runObs, ht]
  | cons b bs ih =>
    have hpipe : (step t (.arrive b)).1.pipeline = true := by simp [step, ht]
    have hatt : (step t (.arrive b)).1.attempts = t.attempts := by simp [step, ht]
    have hobs : (step t (.arrive b)).2 = [.spawned t.nextJob (!t.pipeline)] := by
      simp [step, ht]
    have ih' := ih (step t (.arrive b)).1 hpipe
    refine ⟨?_, ?_, ?_, ?_⟩
    · simpa only [List.map_cons, runState] using ih'.1
    · simp only [List.map_cons, runState]
      rw [ih'.2.1, hatt]
    · simp only [List.map_cons, runObs, List.length_append, hobs, ih'.2.2.1]
      simp [Nat.add_comm]
    · intro o ho
      simp only [List.map_cons, runObs, hobs] at ho
      rcases List.mem_append.1 ho with h | h
      · exact ⟨t.nextJob, !t.pipeline, by simpa using h⟩
      · exact ih'.2.2.2 o h

/-- In any valid run from the initial state, `idleFor` counts exactly a
suffix of uninterrupted ticks: whenever `idleFor = n`, the last `n`
events were all `tick` (no request arrived, no job completed). -/
theorem idleFor_trailing_ticks (es : List Event) (h : validFrom actorInit es = true) :
    ∃ es', es = es' ++ List.replicate (runState actorInit es).idleFor .tick := by
  induction es using List.reverseRecOn with
  | nil => exact ⟨[], rfl⟩
  | append_singleton es e ih =>
    have hval : validFrom actorInit es = true := by
      rw [validFrom_append actorInit es [e], Bool.and_eq_true] at h
      exact h.1
    obtain ⟨es', hes'⟩ := ih hval
    rw [runState_append]
    set t := runState actorInit es with hts
    cases e with
    | arrive b =>
      refine ⟨es ++ [.arrive b], ?_⟩
      have : (runState t [.arrive b]).idleFor = 0 := by
        by_cases hp : t.pipeline <;> cases b <;> simp [runState, step, hp]
      rw [this]
      simp
    | complete j b =>
      have hguard : j ∈ t.tasks := by
        rw [validFrom_append actorInit es [.complete j b], Bool.and_eq_true] at h
        have h2 := h.2
        simp only [validFrom, ← hts, Bool.and_eq_true] at h2
        simpa using h2.1
      refine ⟨es ++ [.complete j b], ?_⟩
      have : (runState t [.complete j b]).idleFor = 0 := by
        simp [runState, step, hguard]
      rw [this]
      simp
    | tick =>
      by_cases hemp : t.tasks.isEmpty
      · by_cases httl : pipelineTTL ≤ t.idleFor + 1
        · refine ⟨es ++ [.tick], ?_⟩
          have : (runState t [.tick]).idleFor = 0 := by
            simp [runState, step, hemp, httl]
          rw [this]
          simp
        · refine ⟨es', ?_⟩
          have : (runState t [.tick]).idleFor = t.idleFor + 1 := by
            simp [runState, step, hemp, httl]
          rw [this, List.replicate_succ' t.idleFor Event.tick, hes']
          simp
      · refine ⟨es' ++ [.tick], ?_⟩
        have : (runState t [.tick]).idleFor = t.idleFor := by
          simp [runState, step, hemp]
        rw [this, hes']
        have swap : List.replicate t.idleFor Event.tick ++ [Event.tick]
            = Event.tick :: List.replicate t.idleFor Event.tick := by
          rw [← List.replicate_succ' t.idleFor Event.tick, List.replicate_succ]
        simp only [List.append_assoc, swap]
        simp

/-- C4: the actor never evicts the pipeline while worker jobs are
outstanding.  (a) Any step that drops a ready pipeline is a tick taken
with an empty task set after the full TTL of idleness; (b) in a valid
run, `idleFor = n` means the trailing `n` events were ticks, so the TTL
elapsed with no request arriving and no job completing; (c) from an
absent pipeline, the next request starts a construction attempt, is
observably cold (`cold = true` on its spawned job when construction
succeeds, leaving the pipeline ready), and non-request events never
resurrect the pipeline. -/
theorem eviction_only_when_idle :
    (∀ (s : ActorState) (e : Event), s.pipeline = true → (step s e).1.pipeline = false →
      e = .tick ∧ s.tasks = [] ∧ pipelineTTL ≤ s.idleFor + 1) ∧
    (∀ es : List Event, validFrom actorInit es = true →
      ∃ es', es = es' ++ List.replicate (runState actorInit es).idleFor .tick) ∧
    (∀ s : ActorState, s.pipeline = false →
      (∀ b, (runState s [.arrive b]).attempts = s.attempts + 1) ∧
      (runState s [.arrive true]).pipeline = true ∧
      runObs s [.arrive true] = [.spawned s.nextJob true] ∧
      (∀ j b, (step s (.complete j b)).1.pipeline = false) ∧
      (step s .tick).1.pipeline = false) := by
  refine ⟨?_, idleFor_trailing_ticks, ?_⟩
  · intro s e hs hdrop
    cases e with
    | arrive b =>
      exfalso
      cases b <;> simp [step, hs] at hdrop
    | complete j b =>
      exfalso
      by_cases hj : j ∈ s.tasks <;> simp [step, hj, hs] at hdrop
    | tick =>
      by_cases hemp : s.tasks.isEmpty
      · by_cases httl : pipelineTTL ≤ s.idleFor + 1
        · exact ⟨rfl, List.isEmpty_iff.1 hemp, httl⟩
        · exfalso
          simp [step, hemp, httl, hs] at hdrop
      · exfalso
        simp [step, hemp, hs] at hdrop
  · intro s hs
    refine ⟨?_, ?_, ?_, ?_, ?_⟩
    · intro b
      cases b <;> simp [runState, step, hs]
    · simp [runState, step, hs]
    · simp [runObs, runState, step, hs]
    · intro j b
      by_cases hj : j ∈ s.tasks <;> simp [step, hj, hs]
    · by_cases hemp : s.tasks.isEmpty
      · by_cases httl : pipelineTTL ≤ s.idleFor + 1
        · simp [step, hemp, httl]
        · simp [step, hemp, httl, hs]
      · simp [step, hemp, hs]

/-- Witness for `eviction_only_when_idle` at concrete inputs: a ready
pipeline with no tasks and 59 units of idleness is evicted by the next
tick; a valid run ending in one tick has a one-tick suffix; a cold
request from the absent state loads and spawns with `cold = true`. -/
theorem eviction_only_when_idle_witness :
    (Event.tick = Event.tick ∧ ([] : List ℕ) = [] ∧
      pipelineTTL ≤ (⟨true, [], 3, 1, 59⟩ : ActorState).idleFor + 1) ∧
    (∃ es', [Event.arrive true, Event.complete 0 true, Event.tick] =
      es' ++ List.replicate (runState actorInit
        [Event.arrive true, Event.complete 0 true, Event.tick]).idleFor .tick) ∧
    (runState (⟨false, [], 5, 2, 0⟩ : ActorState) [.arrive true]).pipeline = true := by
  refine ⟨?_, ?_, ?_⟩
  · exact eviction_only_when_idle.1 ⟨true, [], 3, 1, 59⟩ .tick rfl (by decide)
  · exact eviction_only_when_idle.2.1 _ (by decide)
  · exact (eviction_only_when_idle.2.2 ⟨false, [], 5, 2, 0⟩ rfl).2.1

/-- C5 counterexample: two requests arriving while the resource is
absent, the first construction attempt failing. The claim says exactly
one construction attempt is started and both requests receive that one
attempt's outcome; in fact the first request alone receives the first
attempt's failure, and the second request starts a second attempt. -/
theorem two_attempts_on_failure :
    (runState actorInit [.arrive false, .arrive false]).attempts = 2 ∧
    ¬(runState actorInit [.arrive false, .arrive false]).attempts = 1 ∧
    runObs actorInit [.arrive false, .arrive false] = [.buildFailed 1, .buildFailed 2] := by
  decide

/-- C5 (amended): requests are handled one at a time by the actor, so
construction attempts never overlap.  If the first request arriving
while the resource is absent gets a successful construction, that is
the only attempt: every later request finds the pipeline ready, no
further attempt starts, and each of the N requests is answered by
handing it a worker job.  If instead an attempt fails, only its own
request receives the failure and the next request starts a fresh
attempt. -/
theorem single_flight_on_success (s : ActorState) (post : List Bool)
    (hs : s.pipeline = false) :
    (runState s (.arrive true :: post.map .arrive)).attempts = s.attempts + 1 ∧
    (runState s (.arrive true :: post.map .arrive)).pipeline = true ∧
    (runObs s (.arrive true :: post.map .arrive)).length = post.length + 1 ∧
    (∀ o ∈ runObs s (.arrive true :: post.map .arrive), ∃ j c, o = .spawned j c) ∧
    ∀ b, (runState s [.arrive false, .arrive b]).attempts = s.attempts + 2 := by
  have hpipe : (step s (.arrive true)).1.pipeline = true := by simp [step, hs]
  have hatt : (step s (.arrive true)).1.attempts = s.attempts + 1 := by simp [step, hs]
  have hobs : (step s (.arrive true)).2 = [.spawned s.nextJob true] := by simp [step, hs]
  have hw := warmRun post (step s (.arrive true)).1 hpipe
  refine ⟨?_, ?_, ?_, ?_, ?_⟩
  · simp only [runState]
    rw [hw.2.1, hatt]
  · simpa only [runState] using hw.1
  · simp only [runObs, List.length_append, hobs, hw.2.2.1]
    simp [Nat.add_comm]
  · intro o ho
    simp only [runObs, hobs] at ho
    rcases List.mem_append.1 ho with h | h
    · exact ⟨s.nextJob, true, by simpa using h⟩
    · exact hw.2.2.2 o h
  · intro b
    cases b <;> simp [runState, step, hs]

/-- Witness for `single_flight_on_success`: one failed-then-retried pair
and a successful first attempt followed by two warm requests. -/
theorem single_flight_on_success_witness :
    (runState actorInit (.arrive true :: [true, false].map .arrive)).attempts = 0 + 1 ∧
    (runState actorInit (.arrive true :: [true, false].map .arrive)).pipeline = true := by
  have h := single_flight_on_success actorInit [true, false] rfl
  exact ⟨h.1, h.2.1⟩

/-- C6: when construction fails, the error is sent only on the channel
of the request that triggered it (a single `buildFailed` reply), the
resource stays absent, the task set is untouched, and the failure is
not cached: the next request increments the attempt counter again. -/
theorem construction_failure_local (s : ActorState) (hs : s.pipeline = false) :
    step s (.arrive false) =
      ({ s with attempts := s.attempts + 1, idleFor := 0 }, [.buildFailed (s.attempts + 1)]) ∧
    (step s (.arrive false)).1.pipeline = false ∧
    (step s (.arrive false)).1.tasks = s.tasks ∧
    ∀ b, (runState s [.arrive false, .arrive b]).attempts = s.attempts + 2 := by
  refine ⟨by simp [step, hs], by simp [step, hs], by simp [step, hs], ?_⟩
  intro b
  cases b <;> simp [runState, step, hs]

/-- Witness for `construction_failure_local` at a concrete state with
one outstanding task. -/
theorem construction_failure_local_witness :
    (step (⟨false, [3], 7, 4, 2⟩ : ActorState) (.arrive false)).1.pipeline = false ∧
    (step (⟨false, [3], 7, 4, 2⟩ : ActorState) (.arrive false)).1.tasks = [3] ∧
    (runState (⟨false, [3], 7, 4, 2⟩ : ActorState) [.arrive false, .arrive true]).attempts
      = 4 + 2 := by
  have h := construction_failure_local ⟨false, [3], 7, 4, 2⟩ rfl
  exact ⟨h.2.1, h.2.2.1, h.2.2.2 true⟩

/-- C9: a worker job's completion (success or failure) is reported
exactly once, on the owning request's channel; the pipeline handle, the
attempt counter, the job-id counter are untouched, and every other
outstanding job stays in the task set. -/
theorem job_failure_isolated (s : ActorState) (j : ℕ) (b : Bool) (hj : j ∈ s.tasks) :
    (step s (.complete j b)).2 = [.jobDone j b] ∧
    (step s (.complete j b)).1.pipeline = s.pipeline ∧
    (step s (.complete j b)).1.attempts = s.attempts ∧
    (step s (.complete j b)).1.nextJob = s.nextJob ∧
    (step s (.complete j b)).1.tasks = s.tasks.erase j ∧
    ∀ k ∈ s.tasks, k ≠ j → k ∈ (step s (.complete j b)).1.tasks := by
  refine ⟨by simp [step, hj], by simp [step, hj], by simp [step, hj],
    by simp [step, hj], by simp [step, hj], ?_⟩
  intro k hk hne
  have : (step s (.complete j b)).1.tasks = s.tasks.erase j := by simp [step, hj]
  rw [this]
  exact (List.mem_erase_of_ne hne).2 hk

/-- Witness for `job_failure_isolated`: a failing job `4` completing
while jobs `4` and `9` are outstanding and the pipeline is ready. -/
theorem job_failure_isolated_witness :
    (step (⟨true, [4, 9], 10, 1, 0⟩ : ActorState) (.complete 4 false)).2
      = [.jobDone 4 false] ∧
    (step (⟨true, [4, 9], 10, 1, 0⟩ : ActorState) (.complete 4 false)).1.pipeline = true ∧
    9 ∈ (step (⟨true, [4, 9], 10, 1, 0⟩ : ActorState) (.complete 4 false)).1.tasks := by
  have h := job_failure_isolated ⟨true, [4, 9], 10, 1, 0⟩ 4 false (by decide)
  exact ⟨h.1, h.2.1, h.2.2.2.2.2 9 (by decide) (by decide)⟩

/-- C7 counterexample: the status message delivered to the caller is the
error's own display text, not a fixed generic "internal error" — two
different failure kinds produce two different caller-visible statuses,
and an I/O failure's message is the detailed internal text itself. -/
theorem status_message_leaks_detail :
    (errorToStatus (.bert (.io ("no such file")))).message = "no such file" ∧
    (errorToStatus (.bert .tokenizer)).message = "tokenizer error" ∧
    errorToStatus (.bert (.io ("no such file"))) ≠ errorToStatus (.bert .tokenizer) := by
  refine ⟨rfl, rfl, ?_⟩
  decide

/-- C7 (amended): every failure kind maps to the generic `Internal`
gRPC status code at the transport boundary, but the status message is
the error's display string, so the detailed error information is
included in the caller-visible message rather than being confined to
server-side logs. -/
theorem every_error_maps_to_internal (e : ActorError) :
    (errorToStatus e).code = .internal ∧ (errorToStatus e).message = e.display :=
  ⟨rfl, rfl⟩

end Trast
